import Mathlib

/-!
Verification of the core of `spotiflow.py`: the greedy nearest-neighbor
playlist ordering (`order_tracks`), the Euclidean distance (`get_distance`),
and the dict-based track ingestion of `main`.

Modelling choices, each traceable to the source:
* A playlist dictionary is modelled by its key list in insertion order
  (`List ℕ`); Python dicts iterate in insertion order and `del` preserves
  the relative order of the remaining keys, which `List.erase` mirrors for
  the duplicate-free key lists a dict produces.
* `track_features` is a total map `ℕ → List ℚ`; in `main` every playlist
  key is assigned a feature list (possibly `[]` when `get_track_features`
  found nothing).
* Feature values are rationals; `np.array` subtraction with 1-d
  broadcasting is `np_sub`, returning `none` for the shapes on which numpy
  raises `ValueError`.
* `np.linalg.norm(a - b)` is the square root of the sum of squares.  The
  loop in `order_tracks` uses distances only in the comparisons
  `min_distance == -1 or min_distance > distance`; since every distance is
  nonnegative and the square root is strictly monotone on nonnegatives,
  comparing squared distances takes exactly the branches the source takes
  on the square-rooted ones.  `find_min` therefore carries the squared
  distance, and the bridge to the real-valued metric `get_distance` is
  proved where a claim speaks about the metric itself.
* Failures are explicit: `Except PyErr` for `order_tracks`
  (`IndexError` from `list(remaining.keys())[0]` on an empty dict,
  `ValueError` from numpy shape mismatch, `KeyError` from
  `del remaining[None]` on the unreachable empty-scan branch).
-/

namespace Spotiflow

/-- Runtime errors the Python functions can raise on the modelled paths. -/
inductive PyErr where
  | indexError
  | valueError
  | keyError
  deriving DecidableEq

/-- 1-d numpy subtraction `np.array(a) - np.array(b)` with broadcasting:
defined when the lengths agree or one operand has length 1; otherwise numpy
raises `ValueError` (modelled as `none`). -/
def np_sub (a b : List ℚ) : Option (List ℚ) :=
  if a.length = b.length then some (List.zipWith (fun x y => x - y) a b)
  else if a.length = 1 then some (b.map (fun y => a.headI - y))
  else if b.length = 1 then some (a.map (fun x => x - b.headI))
  else none

/-- Sum of squares of a vector, the square of its Euclidean norm. -/
def sumSq (v : List ℚ) : ℚ := (v.map (fun x => x * x)).sum

/-- The square of `get_distance(a, b) = np.linalg.norm(a - b)`; `none` when
the subtraction raises. -/
def get_distance_sq (a b : List ℚ) : Option ℚ :=
  (np_sub a b).map sumSq

/-- `get_distance(a, b)`: the Euclidean norm of the componentwise
difference, `np.linalg.norm(a - b)`, as a real number. -/
noncomputable def get_distance (a b : List ℚ) : Option ℝ :=
  (get_distance_sq a b).map (fun s => Real.sqrt (s : ℝ))

/-- The inner loop of `order_tracks`: scan `remaining` keeping the smallest
distance seen (`-1` is the source's "nothing seen yet" sentinel) and the
first track that attained it.  Squared distances are compared; see the
header comment for why the branches agree with the source's. -/
def find_min (tf : ℕ → List ℚ) (current : ℕ) :
    List ℕ → ℚ → Option ℕ → Except PyErr (ℚ × Option ℕ)
  | [], min_distance, min_track => .ok (min_distance, min_track)
  | track :: rest, min_distance, min_track =>
    match get_distance_sq (tf current) (tf track) with
    | none => .error .valueError
    | some distance =>
      if min_distance = -1 ∨ distance < min_distance then
        find_min tf current rest distance (some track)
      else
        find_min tf current rest min_distance min_track

/-- The outer loop of `order_tracks`: `fuel` models
`for i in range(len(remaining))`, whose bound is taken once; each pass
appends the selected track and deletes it from `remaining`.  The source
would reach `del remaining[None]` (a `KeyError`) only if the scan selected
nothing, which cannot happen while `remaining` is nonempty. -/
def tour_loop (tf : ℕ → List ℚ) : ℕ → ℕ → List ℕ → Except PyErr (List ℕ)
  | 0, _, _ => .ok []
  | fuel + 1, current, remaining =>
    match find_min tf current remaining (-1) none with
    | .error e => .error e
    | .ok (_, none) => .error .keyError
    | .ok (_, some m) =>
      match tour_loop tf fuel m (remaining.erase m) with
      | .error e => .error e
      | .ok rest => .ok (m :: rest)

/-- `order_tracks(playlist, track_features)`: seed with the first key
(`list(remaining.keys())[0]`, an `IndexError` on an empty dict), then run
the greedy loop over the remaining keys. -/
def order_tracks (playlist : List ℕ) (tf : ℕ → List ℚ) :
    Except PyErr (List ℕ) :=
  match playlist with
  | [] => .error .indexError
  | current :: rest =>
    match tour_loop tf rest.length current rest with
    | .error e => .error e
    | .ok t => .ok (current :: t)

/-- The ingestion step of `main`: `playlist[track_id] = [name, artist]`.
Python dict assignment replaces the value in place when the key exists
(keeping its position) and appends otherwise. -/
def dict_set (d : List (ℕ × String × String)) (k : ℕ) (v : String × String) :
    List (ℕ × String × String) :=
  if d.any (fun p => p.1 == k) then
    d.map (fun p => if p.1 = k then (k, v) else p)
  else d ++ [(k, v)]

/-- Features of the scenario tracks A = 0, B = 1, C = 2 from the spec. -/
def tfABC : ℕ → List ℚ := fun n =>
  if n = 0 then [0, 0, 0, 0, 0, 0, 0]
  else if n = 1 then [1, 0, 0, 0, 0, 0, 0]
  else [5, 0, 0, 0, 0, 0, 0]

/-- Two identical feature vectors after the seed: the tie scenario. -/
def tfTie : ℕ → List ℚ := fun n =>
  if n = 0 then [0, 0, 0, 0, 0, 0, 0] else [1, 0, 0, 0, 0, 0, 0]

/-- Every track has the same full feature vector. -/
def tf7 : ℕ → List ℚ := fun _ => [0, 0, 0, 0, 0, 0, 0]

/-- Every track's feature lookup came back empty. -/
def tfEmpty : ℕ → List ℚ := fun _ => []

/-- Track 0 has features, track 1 does not (`get_track_features` → `[]`). -/
def tfMixed : ℕ → List ℚ := fun n =>
  if n = 0 then [0, 0, 0, 0, 0, 0, 0] else []

/-! ### Basic facts about the distance -/

lemma sumSq_nonneg (v : List ℚ) : 0 ≤ sumSq v := by
  induction v with
  | nil => simp [sumSq]
  | cons x xs ih =>
    simp only [sumSq, List.map_cons, List.sum_cons] at ih ⊢
    exact add_nonneg (mul_self_nonneg x) ih

lemma get_distance_sq_nonneg {a b : List ℚ} {d : ℚ}
    (h : get_distance_sq a b = some d) : 0 ≤ d := by
  unfold get_distance_sq at h
  cases hs : np_sub a b with
  | none => rw [hs] at h; simp at h
  | some v =>
    rw [hs] at h
    simp at h
    exact h ▸ sumSq_nonneg v

lemma get_distance_sq_of_length_eq {a b : List ℚ} (h : a.length = b.length) :
    get_distance_sq a b = some (sumSq (List.zipWith (fun x y => x - y) a b)) := by
  simp [get_distance_sq, np_sub, h]

lemma sumSq_zipWith_comm (a b : List ℚ) :
    sumSq (List.zipWith (fun x y => x - y) a b) =
      sumSq (List.zipWith (fun x y => x - y) b a) := by
  induction a generalizing b with
  | nil => cases b <;> simp
  | cons x xs ih =>
    cases b with
    | nil => simp
    | cons y ys =>
      simp only [List.zipWith_cons_cons, sumSq, List.map_cons, List.sum_cons] at ih ⊢
      rw [ih ys]
      ring_nf

lemma sumSq_zipWith_self (a : List ℚ) :
    sumSq (List.zipWith (fun x y => x - y) a a) = 0 := by
  induction a with
  | nil => simp [sumSq]
  | cons x xs ih =>
    simp only [List.zipWith_cons_cons, sumSq, List.map_cons, List.sum_cons] at ih ⊢
    rw [ih]
    ring_nf


/-! ### Characterization of the scan `find_min` -/

/-- Behaviour of the scan once a real candidate `(d₀, m₀)` has been
recorded: the result is the recorded candidate unchanged, or the first
strictly better track of `l`; either way the result lower-bounds every
distance in `l`. -/
lemma find_min_go (tf : ℕ → List ℚ) (current : ℕ) :
    ∀ (l : List ℕ) (d₀ : ℚ) (m₀ : ℕ), 0 ≤ d₀ →
    (∀ t ∈ l, ∃ dt, get_distance_sq (tf current) (tf t) = some dt) →
    ∃ d m, find_min tf current l d₀ (some m₀) = .ok (d, some m) ∧
      0 ≤ d ∧ d ≤ d₀ ∧
      (∀ t ∈ l, ∀ dt, get_distance_sq (tf current) (tf t) = some dt → d ≤ dt) ∧
      ((m = m₀ ∧ d = d₀) ∨
        (∃ l₁ l₂, l = l₁ ++ m :: l₂ ∧
          get_distance_sq (tf current) (tf m) = some d ∧ d < d₀ ∧
          (∀ t ∈ l₁, ∀ dt, get_distance_sq (tf current) (tf t) = some dt →
            d < dt))) := by
  intro l
  induction l with
  | nil =>
    intro d₀ m₀ h₀ _
    exact ⟨d₀, m₀, rfl, h₀, le_refl _, by simp, Or.inl ⟨rfl, rfl⟩⟩
  | cons track rest ih =>
    intro d₀ m₀ h₀ hD
    obtain ⟨dt, hdt⟩ := hD track (List.mem_cons_self track rest)
    have hdt0 : 0 ≤ dt := get_distance_sq_nonneg hdt
    have hDrest : ∀ t ∈ rest, ∃ d,
        get_distance_sq (tf current) (tf t) = some d :=
      fun t ht => hD t (List.mem_cons_of_mem _ ht)
    have hs : d₀ ≠ -1 := by
      intro h
      rw [h] at h₀
      norm_num at h₀
    by_cases hlt : dt < d₀
    · obtain ⟨d, m, heq, hd0, hdle, hall, hcase⟩ := ih dt track hdt0 hDrest
      refine ⟨d, m, ?_, hd0, le_trans hdle (le_of_lt hlt), ?_, ?_⟩
      · simp only [find_min, hdt]
        rw [if_pos (Or.inr hlt)]
        exact heq
      · intro t ht dt' hdt'
        rcases List.mem_cons.mp ht with h | h
        · subst h
          have hee : dt = dt' := Option.some_inj.mp (hdt.symm.trans hdt')
          rw [← hee]
          exact hdle
        · exact hall t h dt' hdt'
      · rcases hcase with ⟨hm, hd⟩ | ⟨l₁, l₂, hsplit, hm, hdlt, hl₁⟩
        · refine Or.inr ⟨[], rest, by simp [hm], ?_, ?_, by simp⟩
          · rw [hm, hd]
            exact hdt
          · rw [hd]
            exact hlt
        · refine Or.inr ⟨track :: l₁, l₂, by simp [hsplit], hm,
            lt_trans hdlt hlt, ?_⟩
          intro t ht dt' hdt'
          rcases List.mem_cons.mp ht with h | h
          · subst h
            have hee : dt = dt' := Option.some_inj.mp (hdt.symm.trans hdt')
            rw [← hee]
            exact hdlt
          · exact hl₁ t h dt' hdt'
    · obtain ⟨d, m, heq, hd0, hdle, hall, hcase⟩ := ih d₀ m₀ h₀ hDrest
      refine ⟨d, m, ?_, hd0, hdle, ?_, ?_⟩
      · simp only [find_min, hdt]
        rw [if_neg (by simp [hs, hlt])]
        exact heq
      · intro t ht dt' hdt'
        rcases List.mem_cons.mp ht with h | h
        · subst h
          have hee : dt = dt' := Option.some_inj.mp (hdt.symm.trans hdt')
          rw [← hee]
          exact le_trans hdle (not_lt.mp hlt)
        · exact hall t h dt' hdt'
      · rcases hcase with ⟨hm, hd⟩ | ⟨l₁, l₂, hsplit, hm, hdlt, hl₁⟩
        · exact Or.inl ⟨hm, hd⟩
        · refine Or.inr ⟨track :: l₁, l₂, by simp [hsplit], hm, hdlt, ?_⟩
          intro t ht dt' hdt'
          rcases List.mem_cons.mp ht with h | h
          · subst h
            have hee : dt = dt' := Option.some_inj.mp (hdt.symm.trans hdt')
            rw [← hee]
            exact lt_of_lt_of_le hdlt (not_lt.mp hlt)
          · exact hl₁ t h dt' hdt'

/-- The scan of `order_tracks`, started with the `-1` sentinel, on a
nonempty list of comparable tracks: it returns the first track of the list
attaining the minimum squared distance, and its distance. -/
lemma find_min_spec (tf : ℕ → List ℚ) (current : ℕ) (l : List ℕ)
    (hne : l ≠ [])
    (hD : ∀ t ∈ l, ∃ dt, get_distance_sq (tf current) (tf t) = some dt) :
    ∃ d m l₁ l₂, find_min tf current l (-1) none = .ok (d, some m) ∧
      l = l₁ ++ m :: l₂ ∧
      get_distance_sq (tf current) (tf m) = some d ∧ 0 ≤ d ∧
      (∀ t ∈ l, ∀ dt, get_distance_sq (tf current) (tf t) = some dt →
        d ≤ dt) ∧
      (∀ t ∈ l₁, ∀ dt, get_distance_sq (tf current) (tf t) = some dt →
        d < dt) := by
  cases l with
  | nil => exact absurd rfl hne
  | cons track rest =>
    obtain ⟨dt, hdt⟩ := hD track (List.mem_cons_self track rest)
    have hdt0 : 0 ≤ dt := get_distance_sq_nonneg hdt
    have hDrest : ∀ t ∈ rest, ∃ d,
        get_distance_sq (tf current) (tf t) = some d :=
      fun t ht => hD t (List.mem_cons_of_mem _ ht)
    obtain ⟨d, m, heq, hd0, hdle, hall, hcase⟩ :=
      find_min_go tf current rest dt track hdt0 hDrest
    have hstep : find_min tf current (track :: rest) (-1) none =
        find_min tf current rest dt (some track) := by
      simp only [find_min, hdt]
      simp
    rcases hcase with ⟨hm, hd⟩ | ⟨l₁, l₂, hsplit, hm, hdlt, hl₁⟩
    · refine ⟨d, m, [], rest, hstep ▸ heq, by simp [hm], ?_, hd0, ?_, by simp⟩
      · rw [hm, hd]
        exact hdt
      · intro t ht dt' hdt'
        rcases List.mem_cons.mp ht with h | h
        · subst h
          have hee : dt = dt' := Option.some_inj.mp (hdt.symm.trans hdt')
          rw [← hee, hd]
        · exact hall t h dt' hdt'
    · refine ⟨d, m, track :: l₁, l₂, hstep ▸ heq, by simp [hsplit], hm, hd0,
        ?_, ?_⟩
      · intro t ht dt' hdt'
        rcases List.mem_cons.mp ht with h | h
        · subst h
          have hee : dt = dt' := Option.some_inj.mp (hdt.symm.trans hdt')
          rw [← hee]
          exact hdle
        · exact hall t h dt' hdt'
      · intro t ht dt' hdt'
        rcases List.mem_cons.mp ht with h | h
        · subst h
          have hee : dt = dt' := Option.some_inj.mp (hdt.symm.trans hdt')
          rw [← hee]
          exact hdlt
        · exact hl₁ t h dt' hdt'

/-! ### The greedy loop -/

/-- With `fuel` equal to the number of remaining tracks and every feature
vector 7-dimensional, the loop succeeds and produces a permutation of the
remaining tracks. -/
lemma tour_loop_perm (tf : ℕ → List ℚ) :
    ∀ (fuel : ℕ) (l : List ℕ) (current : ℕ), fuel = l.length →
    (tf current).length = 7 → (∀ t ∈ l, (tf t).length = 7) →
    ∃ t, tour_loop tf fuel current l = .ok t ∧ t.Perm l := by
  intro fuel
  induction fuel with
  | zero =>
    intro l current hlen _ _
    have : l = [] := List.length_eq_zero.mp hlen.symm
    subst this
    exact ⟨[], rfl, List.Perm.refl []⟩
  | succ n ih =>
    intro l current hlen h7c h7l
    have hne : l ≠ [] := by
      intro h
      subst h
      simp at hlen
    have hD : ∀ t ∈ l, ∃ dt, get_distance_sq (tf current) (tf t) = some dt :=
      fun t ht => ⟨_, get_distance_sq_of_length_eq (h7c.trans (h7l t ht).symm)⟩
    obtain ⟨d, m, l₁, l₂, hfind, hsplit, _, _, _, _⟩ :=
      find_min_spec tf current l hne hD
    have hm : m ∈ l := by
      rw [hsplit]
      exact List.mem_append_right l₁ (List.mem_cons_self m l₂)
    have herase : (l.erase m).length = n := by
      rw [List.length_erase_of_mem hm, ← hlen]
      rfl
    obtain ⟨t, hloop, hperm⟩ := ih (l.erase m) m herase.symm (h7l m hm)
      (fun t ht => h7l t (List.mem_of_mem_erase ht))
    refine ⟨m :: t, ?_, ?_⟩
    · simp only [tour_loop, hfind, hloop]
    · exact (hperm.cons m).trans (List.perm_cons_erase hm).symm

/-! ### The all-absent-features run -/

/-- When both vectors are the empty list, the distance evaluates to 0. -/
lemma get_distance_sq_nil : get_distance_sq [] [] = some 0 := by
  simp [get_distance_sq, np_sub, sumSq]

/-- After the scan records a candidate at distance 0 and every remaining
distance is 0, no later track can win: `0 < 0` never holds. -/
lemma find_min_zero (tf : ℕ → List ℚ) (current : ℕ) :
    ∀ (l : List ℕ) (m₀ : ℕ),
    (∀ t ∈ l, get_distance_sq (tf current) (tf t) = some 0) →
    find_min tf current l 0 (some m₀) = .ok (0, some m₀) := by
  intro l
  induction l with
  | nil => intro m₀ _; rfl
  | cons track rest ih =>
    intro m₀ h
    have hdt : get_distance_sq (tf current) (tf track) = some 0 :=
      h track (List.mem_cons_self track rest)
    simp only [find_min, hdt]
    rw [if_neg (by norm_num)]
    exact ih m₀ (fun t ht => h t (List.mem_cons_of_mem _ ht))

/-- When every track (including the current one) has the empty feature
list, each scan selects the head of the remaining list, so the loop
reproduces the remaining list as it stands. -/
lemma tour_loop_all_empty (tf : ℕ → List ℚ) :
    ∀ (l : List ℕ) (current : ℕ), tf current = [] → (∀ t ∈ l, tf t = []) →
    tour_loop tf l.length current l = .ok l := by
  intro l
  induction l with
  | nil => intro current _ _; rfl
  | cons track rest ih =>
    intro current hc h
    have hzero : ∀ t ∈ track :: rest,
        get_distance_sq (tf current) (tf t) = some 0 := by
      intro t ht
      rw [hc, h t ht]
      exact get_distance_sq_nil
    have hfind : find_min tf current (track :: rest) (-1) none =
        .ok (0, some track) := by
      have hdt := hzero track (List.mem_cons_self track rest)
      simp only [find_min, hdt, true_or, if_true]
      exact find_min_zero tf current rest track
        (fun t ht => hzero t (List.mem_cons_of_mem _ ht))
    have hrec : tour_loop tf rest.length track rest = .ok rest :=
      ih track (h track (List.mem_cons_self track rest))
        (fun t ht => h t (List.mem_cons_of_mem _ ht))
    have herase : (track :: rest).erase track = rest := by
      simp [List.erase_cons_head]
    show tour_loop tf (rest.length + 1) current (track :: rest) =
      .ok (track :: rest)
    simp only [tour_loop, hfind, herase, hrec]

/-- Bridge from the squared distance carried by the loop to the metric the
source computes: `np.linalg.norm` is the square root of the carried value. -/
lemma get_distance_of_sq {a b : List ℚ} {d : ℚ}
    (h : get_distance_sq a b = some d) :
    get_distance a b = some (Real.sqrt (d : ℝ)) := by
  simp [get_distance, h]

/-! ### The claims -/

/-- C1: for every playlist of size n ≥ 1 (duplicate-free keys, as a dict
guarantees) whose tracks all carry 7-dimensional feature vectors,
`order_tracks` succeeds and its tour is a permutation of exactly the same
track ids: same set, same length, each id exactly once. -/
theorem order_tracks_is_permutation (playlist : List ℕ) (tf : ℕ → List ℚ)
    (hne : playlist ≠ []) (hnd : playlist.Nodup)
    (h7 : ∀ t ∈ playlist, (tf t).length = 7) :
    ∃ tour, order_tracks playlist tf = .ok tour ∧ tour.Perm playlist ∧
      tour.length = playlist.length ∧ tour.Nodup ∧
      ∀ i, i ∈ tour ↔ i ∈ playlist := by
  cases playlist with
  | nil => exact absurd rfl hne
  | cons c rest =>
    obtain ⟨t, hloop, hperm⟩ := tour_loop_perm tf rest.length rest c rfl
      (h7 c (List.mem_cons_self c rest))
      (fun t ht => h7 t (List.mem_cons_of_mem _ ht))
    have hp : (c :: t).Perm (c :: rest) := hperm.cons c
    refine ⟨c :: t, ?_, hp, hp.length_eq, hp.nodup_iff.mpr hnd,
      fun i => hp.mem_iff⟩
    simp only [order_tracks, hloop]

/-- Witness for C1 on the concrete playlist `[5, 9]` with full feature
vectors everywhere. -/
theorem order_tracks_is_permutation_witness :
    ∃ tour, order_tracks [5, 9] tf7 = .ok tour ∧ tour.Perm [5, 9] ∧
      tour.length = ([5, 9] : List ℕ).length ∧ tour.Nodup ∧
      ∀ i, i ∈ tour ↔ i ∈ ([5, 9] : List ℕ) :=
  order_tracks_is_permutation [5, 9] tf7 (by decide) (by decide) (by decide)

/-- C4 (code bug): on the empty playlist the source does not return an
empty tour or an EmptyPlaylist-style error; `list(remaining.keys())[0]`
raises an unrelated `IndexError`. -/
theorem empty_playlist_index_error (tf : ℕ → List ℚ) :
    order_tracks [] tf = .error .indexError := rfl

/-- C5: whenever `order_tracks` returns a tour for a nonempty playlist (no
explicit seed exists in the source), the tour starts with the playlist's
earliest-inserted key. -/
theorem tour_starts_at_first_inserted (playlist : List ℕ)
    (tf : ℕ → List ℚ) (tour : List ℕ)
    (hok : order_tracks playlist tf = .ok tour) (hne : playlist ≠ []) :
    tour.head? = playlist.head? := by
  cases playlist with
  | nil => exact absurd rfl hne
  | cons c rest =>
    simp only [order_tracks] at hok
    cases hl : tour_loop tf rest.length c rest with
    | error e =>
      rw [hl] at hok
      exact absurd hok (by simp)
    | ok t =>
      rw [hl] at hok
      simp only [Except.ok.injEq] at hok
      rw [← hok]
      rfl

/-- Witness for C5: the two-track playlist `[3, 4]` with identical feature
vectors yields the tour `[3, 4]`, which indeed starts at the first key. -/
theorem tour_starts_at_first_inserted_witness :
    ([3, 4] : List ℕ).head? = ([3, 4] : List ℕ).head? :=
  tour_starts_at_first_inserted [3, 4] tf7 [3, 4]
    (by norm_num [order_tracks, tour_loop, find_min, get_distance_sq,
      np_sub, sumSq, tf7])
    (by decide)

/-- C10: when every track's feature list is empty, every computed distance
is `np.linalg.norm` of an empty difference, i.e. 0, every candidate ties,
the earliest remaining track always wins, and the tour is exactly the
insertion order, with no error raised. -/
theorem all_empty_features_insertion_order (playlist : List ℕ)
    (tf : ℕ → List ℚ) (hne : playlist ≠ [])
    (hempty : ∀ t ∈ playlist, tf t = []) :
    order_tracks playlist tf = .ok playlist ∧ get_distance [] [] = some 0 := by
  constructor
  · cases playlist with
    | nil => exact absurd rfl hne
    | cons c rest =>
      have hloop := tour_loop_all_empty tf rest c
        (hempty c (List.mem_cons_self c rest))
        (fun t ht => hempty t (List.mem_cons_of_mem _ ht))
      simp only [order_tracks, hloop]
  · rw [get_distance_of_sq get_distance_sq_nil]
    norm_num

/-- Witness for C10 on the concrete all-absent playlist `[1, 2, 3]`. -/
theorem all_empty_features_insertion_order_witness :
    order_tracks [1, 2, 3] tfEmpty = .ok [1, 2, 3] ∧
      get_distance [] [] = some 0 :=
  all_empty_features_insertion_order [1, 2, 3] tfEmpty (by decide) (by decide)

/-- C2: at each iteration, the track the loop appends is the scanned
winner, a remaining track whose metric distance to the current track is
minimal among the remaining ones; and the A/B/C scenario
(A = 0 at [0,…], B = 1 at [1,0,…], C = 2 at [5,0,…], inserted in that
order) yields the tour [A, B, C]. -/
theorem greedy_selects_nearest :
    (∀ (tf : ℕ → List ℚ) (current : ℕ) (remaining : List ℕ) (d : ℚ)
      (m : ℕ), (tf current).length = 7 →
      (∀ t ∈ remaining, (tf t).length = 7) →
      find_min tf current remaining (-1) none = .ok (d, some m) →
      m ∈ remaining ∧
      (∀ t ∈ remaining, ∃ rm rt : ℝ,
        get_distance (tf current) (tf m) = some rm ∧
        get_distance (tf current) (tf t) = some rt ∧ rm ≤ rt) ∧
      (∀ n, tour_loop tf (n + 1) current remaining =
        Except.map (fun s => m :: s) (tour_loop tf n m (remaining.erase m)))) ∧
    order_tracks [0, 1, 2] tfABC = .ok [0, 1, 2] := by
  constructor
  · intro tf current remaining d m h7c h7r hfind
    have hne : remaining ≠ [] := by
      intro h
      subst h
      simp [find_min] at hfind
    have hD : ∀ t ∈ remaining, ∃ dt,
        get_distance_sq (tf current) (tf t) = some dt :=
      fun t ht => ⟨_, get_distance_sq_of_length_eq (h7c.trans (h7r t ht).symm)⟩
    obtain ⟨d', m', l₁, l₂, hfind', hsplit, hm', hd0, hall, _⟩ :=
      find_min_spec tf current remaining hne hD
    have hinj := hfind'.symm.trans hfind
    simp only [Except.ok.injEq, Prod.mk.injEq, Option.some.injEq] at hinj
    obtain ⟨hde, hme⟩ := hinj
    subst hde
    subst hme
    refine ⟨?_, ?_, ?_⟩
    · rw [hsplit]
      exact List.mem_append_right l₁ (List.mem_cons_self m' l₂)
    · intro t ht
      obtain ⟨dt, hdt⟩ := hD t ht
      refine ⟨Real.sqrt (d' : ℝ), Real.sqrt (dt : ℝ),
        get_distance_of_sq hm', get_distance_of_sq hdt, ?_⟩
      exact Real.sqrt_le_sqrt (by exact_mod_cast hall t ht dt hdt)
    · intro n
      simp only [tour_loop, hfind]
      cases h : tour_loop tf n m' (remaining.erase m') <;>
        simp [Except.map]
  · norm_num [order_tracks, tour_loop, find_min, get_distance_sq, np_sub,
      sumSq, tfABC]

/-- Witness for C2: from the seed A = 0 over remaining [1, 2] of the
scenario, the scan selects B = 1 (distance 1 beats 5), the loop appends
it, and its distance is minimal. -/
theorem greedy_selects_nearest_witness :
    (1 : ℕ) ∈ [1, 2] ∧
    (∀ t ∈ ([1, 2] : List ℕ), ∃ rm rt : ℝ,
      get_distance (tfABC 0) (tfABC 1) = some rm ∧
      get_distance (tfABC 0) (tfABC t) = some rt ∧ rm ≤ rt) ∧
    (∀ n, tour_loop tfABC (n + 1) 0 [1, 2] =
      Except.map (fun s => 1 :: s) (tour_loop tfABC n 1 ([1, 2].erase 1))) :=
  greedy_selects_nearest.1 tfABC 0 [1, 2] 1 1 (by decide) (by decide)
    (by norm_num [find_min, get_distance_sq, np_sub, sumSq, tfABC])

/-- C6: every remaining candidate scanned strictly before the selected one
is at strictly greater metric distance, so on an exact tie the candidate
earliest in iteration order wins; concretely, with tracks 1 and 2 carrying
identical feature vectors, the earlier track 1 is chosen and the tour is
[0, 1, 2]. -/
theorem tie_earliest_selected :
    (∀ (tf : ℕ → List ℚ) (current : ℕ) (remaining : List ℕ) (d : ℚ)
      (m : ℕ), (tf current).length = 7 →
      (∀ t ∈ remaining, (tf t).length = 7) →
      find_min tf current remaining (-1) none = .ok (d, some m) →
      ∃ l₁ l₂, remaining = l₁ ++ m :: l₂ ∧
        ∀ t ∈ l₁, ∃ rm rt : ℝ,
          get_distance (tf current) (tf m) = some rm ∧
          get_distance (tf current) (tf t) = some rt ∧ rm < rt) ∧
    order_tracks [0, 1, 2] tfTie = .ok [0, 1, 2] := by
  constructor
  · intro tf current remaining d m h7c h7r hfind
    have hne : remaining ≠ [] := by
      intro h
      subst h
      simp [find_min] at hfind
    have hD : ∀ t ∈ remaining, ∃ dt,
        get_distance_sq (tf current) (tf t) = some dt :=
      fun t ht => ⟨_, get_distance_sq_of_length_eq (h7c.trans (h7r t ht).symm)⟩
    obtain ⟨d', m', l₁, l₂, hfind', hsplit, hm', hd0, _, hfirst⟩ :=
      find_min_spec tf current remaining hne hD
    have hinj := hfind'.symm.trans hfind
    simp only [Except.ok.injEq, Prod.mk.injEq, Option.some.injEq] at hinj
    obtain ⟨hde, hme⟩ := hinj
    subst hde
    subst hme
    refine ⟨l₁, l₂, hsplit, ?_⟩
    intro t ht
    have htl : t ∈ remaining := by
      rw [hsplit]
      exact List.mem_append_left _ ht
    obtain ⟨dt, hdt⟩ := hD t htl
    refine ⟨Real.sqrt (d' : ℝ), Real.sqrt (dt : ℝ),
      get_distance_of_sq hm', get_distance_of_sq hdt, ?_⟩
    exact Real.sqrt_lt_sqrt (by exact_mod_cast hd0)
      (by exact_mod_cast hfirst t ht dt hdt)
  · norm_num [order_tracks, tour_loop, find_min, get_distance_sq, np_sub,
      sumSq, tfTie]

/-- Witness for C6: from seed 0 of the tie scenario the scan over [1, 2]
(identical vectors) selects track 1, and the split has an empty prefix. -/
theorem tie_earliest_selected_witness :
    ∃ l₁ l₂, ([1, 2] : List ℕ) = l₁ ++ 1 :: l₂ ∧
      ∀ t ∈ l₁, ∃ rm rt : ℝ,
        get_distance (tfTie 0) (tfTie 1) = some rm ∧
        get_distance (tfTie 0) (tfTie t) = some rt ∧ rm < rt :=
  tie_earliest_selected.1 tfTie 0 [1, 2] 1 1 (by decide) (by decide)
    (by norm_num [find_min, get_distance_sq, np_sub, sumSq, tfTie])

/-- C7: on 7-dimensional vectors `get_distance` succeeds with the
Euclidean (L2) norm of the componentwise difference — the nonnegative real
whose square is the sum of squared componentwise differences — and it is
symmetric and zero on equal arguments. -/
theorem get_distance_euclidean (a b : List ℚ) (ha : a.length = 7)
    (hb : b.length = 7) :
    ∃ r : ℝ, get_distance a b = some r ∧ 0 ≤ r ∧
      r ^ 2 = ((sumSq (List.zipWith (fun x y => x - y) a b) : ℚ) : ℝ) ∧
      get_distance b a = some r ∧ get_distance a a = some 0 := by
  have hab : a.length = b.length := by rw [ha, hb]
  refine ⟨Real.sqrt ((sumSq (List.zipWith (fun x y => x - y) a b) : ℚ) : ℝ),
    get_distance_of_sq (get_distance_sq_of_length_eq hab),
    Real.sqrt_nonneg _, ?_, ?_, ?_⟩
  · exact Real.sq_sqrt (by exact_mod_cast sumSq_nonneg _)
  · rw [get_distance_of_sq (get_distance_sq_of_length_eq hab.symm),
      sumSq_zipWith_comm b a]
  · rw [get_distance_of_sq (get_distance_sq_of_length_eq (rfl : a.length = a.length)),
      sumSq_zipWith_self]
    norm_num

/-- Witness for C7 at two concrete 7-dimensional vectors. -/
theorem get_distance_euclidean_witness :
    ∃ r : ℝ,
      get_distance [0, 0, 0, 0, 0, 0, 0] [1, 0, 0, 0, 0, 0, 0] = some r ∧
      0 ≤ r ∧
      r ^ 2 = ((sumSq (List.zipWith (fun x y => x - y)
        [0, 0, 0, 0, 0, 0, 0] [1, 0, 0, 0, 0, 0, 0]) : ℚ) : ℝ) ∧
      get_distance [1, 0, 0, 0, 0, 0, 0] [0, 0, 0, 0, 0, 0, 0] = some r ∧
      get_distance [0, 0, 0, 0, 0, 0, 0] [0, 0, 0, 0, 0, 0, 0] = some 0 :=
  get_distance_euclidean [0, 0, 0, 0, 0, 0, 0] [1, 0, 0, 0, 0, 0, 0]
    (by decide) (by decide)

/-- C3 (code bug): with track 0 carrying a full 7-dimensional vector and
track 1 an absent one (`get_track_features` returned `[]`), the source
neither excludes track 1 nor raises a MissingFeatures-style error: numpy's
shape mismatch aborts the run with an unrelated `ValueError`. -/
theorem absent_features_crash :
    order_tracks [0, 1] tfMixed = .error .valueError := by
  norm_num [order_tracks, tour_loop, find_min, get_distance_sq, np_sub,
    tfMixed]

/-- C8 (code bug): `get_distance` validates no dimensions.  On two
6-dimensional vectors it succeeds (squared distance 6, metric 0 on equal
ones) instead of failing; on a 7- against a 0-dimensional vector it fails
with numpy's `ValueError`, not an InvalidDimension error (no such error
exists in the source). -/
theorem distance_no_dimension_check :
    get_distance_sq [1, 1, 1, 1, 1, 1] [2, 2, 2, 2, 2, 2] = some 6 ∧
    get_distance [1, 1, 1, 1, 1, 1] [1, 1, 1, 1, 1, 1] = some 0 ∧
    get_distance_sq [0, 0, 0, 0, 0, 0, 0] [] = none := by
  refine ⟨by norm_num [get_distance_sq, np_sub, sumSq], ?_, rfl⟩
  have h : get_distance_sq [1, 1, 1, 1, 1, 1] [1, 1, 1, 1, 1, 1] =
      some 0 := by
    norm_num [get_distance_sq, np_sub, sumSq]
  rw [get_distance_of_sq h]
  norm_num

/-- C9 (code bug): `main`'s ingestion `playlist[track_id] = [name, artist]`
silently overwrites an already-present id — the entry changes and no
DuplicateTrack-style failure occurs. -/
theorem duplicate_insert_overwrites :
    dict_set [(1, ("Song A", "Artist A"))] 1 ("Song B", "Artist B") =
      [(1, ("Song B", "Artist B"))] ∧
    ("Song B", "Artist B") ≠ ("Song A", "Artist A") :=
  ⟨rfl, by decide⟩

end Spotiflow
